import Mathlib

/-!
Verification development for the sovereign-sdk core under review:

* `db/sovereign-db/src/state_db.rs` — the `StateDB` adapter: `TreeReader`
  (`get_node_option`, `get_value_option`, `get_rightmost_leaf`) and
  `TreeWriter` (`write_node_batch`) over three rocksdb tables
  (`JmtNodes`, `JmtValues`, `KeyHashToKey`).
* `adapters/mock-zkvm/src/lib.rs` — the `MockProof` wire format
  (`encode`, `encode_to_vec`, `decode`).

Bytes are modelled as `List Nat`, versions as `Nat`.  The rocksdb substrate
and the schemadb table codecs are not part of the sources under review, so
they are modelled from the spec: each table is a finite association list
with point get/put, and the `JmtValues` table is ordered by the
Composite-Key Codec contract (spec §4.1): lexicographic byte order of the
encoded key equals (preimage, version) ascending, i.e. the lexicographic
product order on the pair itself.
-/

/-- Raw bytes (`Vec<u8>` / `&[u8]`), modelled as a list of naturals. -/
abbrev Bytes := List Nat

/-- `jmt::Version` (`u64`); the claims never exercise overflow. -/
abbrev Version := Nat

/-- The key of the `JmtValues` table: a (key preimage, version) pair.
Modelled from the spec: §4.1 Composite-Key Codec (the schemadb codec is not
under the sources reviewed) — encoded bytes compare as preimage first, then
version ascending, so the stored key is modelled as the pair itself, ordered
by the lexicographic product order `Lex (Bytes × Version)`. -/
abbrev CompositeKey := Bytes × Version

instance [DecidableEq ε] [DecidableEq α] : DecidableEq (Except ε α) := fun x y =>
  match x, y with
  | .ok a, .ok b =>
      if h : a = b then isTrue (by rw [h])
      else isFalse (fun hc => h (by injection hc))
  | .error a, .error b =>
      if h : a = b then isTrue (by rw [h])
      else isFalse (fun hc => h (by injection hc))
  | .ok _, .error _ => isFalse (fun hc => Except.noConfusion hc)
  | .error _, .ok _ => isFalse (fun hc => Except.noConfusion hc)

/-- `DB::get`: point lookup in a keyed table.
Modelled from the spec: §4.2/§4.3 exact-key lookup of the schemadb layer. -/
def assocGet [DecidableEq α] : List (α × β) → α → Option β
  | [], _ => none
  | e :: rest, k => if e.1 = k then some e.2 else assocGet rest k

/-- `DB::put`: point write in a keyed table; overwrites the key if present.
Modelled from the spec: §4.2/§4.3 keyed writes of the schemadb layer. -/
def assocPut [DecidableEq α] (l : List (α × β)) (k : α) (v : β) : List (α × β) :=
  (k, v) :: l.filter (fun e => e.1 ≠ k)

/-- The three column families owned by `StateDB` (state_db.rs):
`JmtNodes` (node key ↦ node), `JmtValues` (composite key ↦ value-or-tombstone,
a stored `None` payload being a tombstone), `KeyHashToKey` (key hash ↦ key
preimage).  The rocksdb handle is mutated in place; here the state is passed
explicitly. -/
structure StateDB where
  jmtNodes : List (Bytes × Bytes)
  jmtValues : List (CompositeKey × Option Bytes)
  keyHashToKey : List (Bytes × Bytes)
deriving DecidableEq

/-- The keyed substrate never stores one key twice: composite keys in
`JmtValues` are pairwise distinct (every state reachable by `DB::put`
writes satisfies this). -/
def StateDB.WF (db : StateDB) : Prop := (db.jmtValues.map (·.1)).Nodup

instance (db : StateDB) : Decidable db.WF := by
  unfold StateDB.WF; infer_instance

/-- `rev_iter` + `seek_for_prev(&(key, version))` + `next()` (state_db.rs
lines 54–57): the stored entry with the greatest composite key not exceeding
the target, if any.  Modelled from the spec: §4.4 and the glossary entry
"Seek-for-previous" (the rocksdb iterator is not under the sources
reviewed). -/
def seekForPrev (l : List (CompositeKey × Option Bytes)) (target : CompositeKey) :
    Option (CompositeKey × Option Bytes) :=
  (l.filter (fun e => decide (toLex e.1 ≤ toLex target))).argmax (fun e => toLex e.1)

/-- The message of the `ensure!` on state_db.rs line 62. -/
def bugMsg (version found_version : Version) : String :=
  "Bug! iterator is not returning expected values. expected a version <= " ++
    toString version ++ " but found " ++ toString found_version

/-- The message of the missing-preimage error on state_db.rs lines 91–93. -/
def missingPreimageMsg (key_hash : Bytes) : String :=
  "Could not find preimage for key hash " ++ toString key_hash

/-- State_db.rs lines 57–69: the match on the entry the seek found.  If the
found entry's key equals the resolved preimage, `ensure!` that its version is
at most the requested one (an internal-invariant failure otherwise) and
return its payload; an entry for a different preimage means no write at or
before the requested version. -/
def lookupFound (key : Bytes) (version : Version) :
    Option (CompositeKey × Option Bytes) → Except String (Option Bytes)
  | some ((found_key, found_version), value) =>
      if found_key = key then
        if found_version ≤ version then .ok value
        else .error (bugMsg version found_version)
      else .ok none
  | none => .ok none

/-- `TreeReader::get_value_option` (state_db.rs lines 48–72): resolve the key
hash through `KeyHashToKey`; absent means `Ok(None)`; otherwise seek
`JmtValues` for the latest entry of that key at or before `version`. -/
def StateDB.get_value_option (db : StateDB) (version : Version) (key_hash : Bytes) :
    Except String (Option Bytes) :=
  match assocGet db.keyHashToKey key_hash with
  | some key => lookupFound key version (seekForPrev db.jmtValues (key, version))
  | none => .ok none

/-- `TreeReader::get_node_option` (state_db.rs lines 41–46): a direct
`DB::get` on `JmtNodes`. -/
def StateDB.get_node_option (db : StateDB) (node_key : Bytes) :
    Except String (Option Bytes) :=
  .ok (assocGet db.jmtNodes node_key)

/-- Outcome of a Rust call that may panic instead of returning. -/
inductive PanicOr (α : Type) where
  | panics (msg : String)
  | normal (a : α)
deriving DecidableEq

/-- `TreeReader::get_rightmost_leaf` (state_db.rs lines 74–78): the body is
`todo!()`, which panics with "not yet implemented" on every call. -/
def StateDB.get_rightmost_leaf (_db : StateDB) : PanicOr (Option (Bytes × Bytes)) :=
  .panics "not yet implemented"

/-- `jmt::storage::NodeBatch` as consumed by `write_node_batch`: node entries
(`nodes()`) and value entries (`values()`, keyed by (version, key hash), a
`None` payload being a deletion/tombstone). -/
structure NodeBatch where
  nodes : List (Bytes × Bytes)
  values : List ((Version × Bytes) × Option Bytes)
deriving DecidableEq

/-- The first loop of `write_node_batch` (state_db.rs lines 83–85): put every
node entry into `JmtNodes`. -/
def writeNodes (db : StateDB) : List (Bytes × Bytes) → StateDB
  | [] => db
  | (node_key, node) :: rest =>
      writeNodes { db with jmtNodes := assocPut db.jmtNodes node_key node } rest

/-- The second loop of `write_node_batch` (state_db.rs lines 87–95): for each
value entry resolve the key hash through `KeyHashToKey`; failure to resolve
aborts with the missing-preimage error (the rocksdb handle is mutated in
place, so the puts already performed persist — hence the result carries both
the state reached and the optional error). -/
def writeValues (db : StateDB) : List ((Version × Bytes) × Option Bytes) →
    StateDB × Option String
  | [] => (db, none)
  | ((version, key_hash), value) :: rest =>
      match assocGet db.keyHashToKey key_hash with
      | some key_preimage =>
          writeValues
            { db with jmtValues := assocPut db.jmtValues (key_preimage, version) value } rest
      | none => (db, some (missingPreimageMsg key_hash))

/-- `TreeWriter::write_node_batch` (state_db.rs lines 82–97): write all node
entries, then process the value entries. -/
def StateDB.write_node_batch (db : StateDB) (node_batch : NodeBatch) :
    StateDB × Option String :=
  writeValues (writeNodes db node_batch.nodes) node_batch.values

/-- Spec-side view: the history of preimage `key` — the (version, payload)
pairs stored for it in `JmtValues`. -/
def histOf (db : StateDB) (key : Bytes) : List (Version × Option Bytes) :=
  (db.jmtValues.filter (fun e => decide (e.1.1 = key))).map (fun e => (e.1.2, e.2))

/-- Spec-side view, from the spec's words (§8 monotone lookup law): the value
written at the greatest version `vi ≤ V` of the history, or `none` when every
write is later than `V` (or the history is empty). -/
def asOf (hist : List (Version × Option Bytes)) (V : Version) : Option Bytes :=
  match (hist.filter (fun p => decide (p.1 ≤ V))).argmax (·.1) with
  | some p => p.2
  | none => none

/-- `MockCodeCommitment` is `[u8; 32]`; `MockProof` (mock-zkvm lib.rs lines
23–31): program id bytes, validity flag, opaque log. -/
structure MockProof where
  program_id : Bytes
  is_valid : Bool
  log : Bytes
deriving DecidableEq

/-- `MockProof::encode` (lib.rs lines 35–40): append the 32 program-id bytes,
one validity byte (1 if valid, else 0), then the log, to the writer. -/
def MockProof.encode (p : MockProof) (writer : Bytes) : Bytes :=
  writer ++ p.program_id ++ [if p.is_valid then 1 else 0] ++ p.log

/-- `MockProof::encode_to_vec` (lib.rs lines 43–47): encode into an empty
vector. -/
def MockProof.encode_to_vec (p : MockProof) : Bytes :=
  p.encode []

/-- `MockProof::decode` (lib.rs lines 50–60): require at least 33 bytes;
bytes 0..32 are the program id, byte 32 is compared against 1 for the
validity flag, bytes 33.. are the log. -/
def MockProof.decode (input : Bytes) : Except String MockProof :=
  if 33 ≤ input.length then
    .ok { program_id := input.take 32, is_valid := input.getD 32 0 == 1,
          log := input.drop 33 }
  else
    .error "Input is too short"

/-! ### Lemmas about the keyed substrate -/

theorem assocGet_put_self [DecidableEq α] (l : List (α × β)) (k : α) (v : β) :
    assocGet (assocPut l k v) k = some v := by
  simp [assocPut, assocGet]

theorem assocGet_filter [DecidableEq α] {p : α × β → Bool} (l : List (α × β))
    (k : α) (hp : ∀ e : α × β, e.1 = k → p e = true) :
    assocGet (l.filter p) k = assocGet l k := by
  induction l with
  | nil => rfl
  | cons e rest ih =>
      by_cases hek : e.1 = k
      · rw [List.filter_cons_of_pos (hp e hek)]
        simp [assocGet, hek, ih]
      · cases hpe : p e
        · rw [List.filter_cons_of_neg (by simp [hpe])]
          rw [ih]
          simp [assocGet, hek]
        · rw [List.filter_cons_of_pos (by simp [hpe])]
          simp [assocGet, hek, ih]

theorem assocGet_put_ne [DecidableEq α] (l : List (α × β)) {k k' : α} (v : β)
    (h : k ≠ k') :
    assocGet (assocPut l k' v) k = assocGet l k := by
  have h1 : assocGet ((k', v) :: l.filter (fun e => e.1 ≠ k')) k =
      assocGet (l.filter (fun e => e.1 ≠ k')) k := by
    simp [assocGet, Ne.symm h]
  rw [assocPut, h1]
  exact assocGet_filter l k (fun e he => by simp [he, h])

theorem mem_unique_of_nodup_keys {α β : Type} {l : List (α × β)}
    (hnd : (l.map (·.1)).Nodup) {k : α} {a b : β}
    (ha : (k, a) ∈ l) (hb : (k, b) ∈ l) : a = b := by
  induction l with
  | nil => cases ha
  | cons e rest ih =>
      simp only [List.map_cons, List.nodup_cons] at hnd
      rcases List.mem_cons.1 ha with ha0 | ha1 <;>
        rcases List.mem_cons.1 hb with hb0 | hb1
      · have hab := ha0.trans hb0.symm
        injection hab
      · exfalso
        refine hnd.1 ?_
        rw [show e.1 = k from by rw [← ha0]]
        exact List.mem_map.2 ⟨(k, b), hb1, rfl⟩
      · exfalso
        refine hnd.1 ?_
        rw [show e.1 = k from by rw [← hb0]]
        exact List.mem_map.2 ⟨(k, a), ha1, rfl⟩
      · exact ih hnd.2 ha1 hb1

/-! ### Characterisation of the seek primitive -/

theorem seekForPrev_eq_none {l : List (CompositeKey × Option Bytes)}
    {target : CompositeKey}
    (h : ∀ e ∈ l, ¬ toLex e.1 ≤ toLex target) :
    seekForPrev l target = none := by
  unfold seekForPrev
  rw [List.argmax_eq_none, List.filter_eq_nil_iff]
  intro e he
  simpa using h e he

theorem seekForPrev_spec {l : List (CompositeKey × Option Bytes)}
    {target : CompositeKey} {e : CompositeKey × Option Bytes}
    (h : seekForPrev l target = some e) :
    e ∈ l ∧ toLex e.1 ≤ toLex target ∧
      ∀ e' ∈ l, toLex e'.1 ≤ toLex target → toLex e'.1 ≤ toLex e.1 := by
  unfold seekForPrev at h
  have hmem : e ∈ (l.filter (fun e => decide (toLex e.1 ≤ toLex target))) :=
    List.argmax_mem h
  have hmem' := List.mem_filter.1 hmem
  refine ⟨hmem'.1, by simpa using hmem'.2, ?_⟩
  intro e' he' hle
  have : e' ∈ (l.filter (fun e => decide (toLex e.1 ≤ toLex target))) :=
    List.mem_filter.2 ⟨he', by simpa using hle⟩
  exact List.le_of_mem_argmax (f := fun e => toLex e.1) this h

/-! ### Lemmas about the spec-side `asOf` view -/

theorem asOf_eq_none {hist : List (Version × Option Bytes)} {V : Version}
    (h : ∀ p ∈ hist, ¬ p.1 ≤ V) : asOf hist V = none := by
  unfold asOf
  have : hist.filter (fun p => decide (p.1 ≤ V)) = [] := by
    rw [List.filter_eq_nil_iff]
    intro p hp
    simpa using h p hp
  rw [this]
  rfl

theorem asOf_eq {hist : List (Version × Option Bytes)} {V vi : Version}
    {wi : Option Bytes}
    (hmem : (vi, wi) ∈ hist) (hle : vi ≤ V)
    (hmax : ∀ p ∈ hist, p.1 ≤ V → p.1 ≤ vi)
    (huniq : ∀ p ∈ hist, p.1 = vi → p.2 = wi) :
    asOf hist V = wi := by
  unfold asOf
  have hmemf : (vi, wi) ∈ hist.filter (fun p => decide (p.1 ≤ V)) :=
    List.mem_filter.2 ⟨hmem, by simpa using hle⟩
  cases harg : (hist.filter (fun p => decide (p.1 ≤ V))).argmax (·.1) with
  | none =>
      rw [List.argmax_eq_none] at harg
      rw [harg] at hmemf
      cases hmemf
  | some p =>
      have hp := List.mem_filter.1 (List.argmax_mem harg)
      have hple : p.1 ≤ V := by simpa using hp.2
      have h1 : p.1 ≤ vi := hmax p hp.1 hple
      have h2 : vi ≤ p.1 := List.le_of_mem_argmax hmemf harg
      exact huniq p hp.1 (le_antisymm h1 h2)

theorem mem_histOf {db : StateDB} {key : Bytes} {vi : Version}
    {wi : Option Bytes} :
    (vi, wi) ∈ histOf db key ↔ ((key, vi), wi) ∈ db.jmtValues := by
  unfold histOf
  constructor
  · intro h
    rcases List.mem_map.1 h with ⟨e, he, heq⟩
    have he' := List.mem_filter.1 he
    have hk : e.1.1 = key := by simpa using he'.2
    have hv : e.1.2 = vi := congrArg Prod.fst heq
    have hw : e.2 = wi := congrArg Prod.snd heq
    have : e = ((key, vi), wi) := by
      rcases e with ⟨⟨a, b⟩, c⟩
      simp only at hk hv hw
      rw [hk, hv, hw]
    rw [← this]; exact he'.1
  · intro h
    exact List.mem_map.2 ⟨((key, vi), wi), List.mem_filter.2 ⟨h, by simp⟩, rfl⟩

theorem seekForPrev_none_spec {l : List (CompositeKey × Option Bytes)}
    {target : CompositeKey} (h : seekForPrev l target = none) :
    ∀ e ∈ l, ¬ toLex e.1 ≤ toLex target := by
  unfold seekForPrev at h
  rw [List.argmax_eq_none, List.filter_eq_nil_iff] at h
  intro e he hle
  exact absurd (by simpa using hle) (h e he)

/-! ### The point-in-time lookup refines the spec's monotone lookup law -/

theorem get_value_none_of_unresolved (db : StateDB) (V : Version)
    {key_hash : Bytes} (hres : assocGet db.keyHashToKey key_hash = none) :
    db.get_value_option V key_hash = .ok none := by
  unfold StateDB.get_value_option
  rw [hres]

theorem get_value_eq_asOf (db : StateDB) (V : Version) (key_hash key : Bytes)
    (hres : assocGet db.keyHashToKey key_hash = some key) (hwf : db.WF) :
    db.get_value_option V key_hash = .ok (asOf (histOf db key) V) := by
  unfold StateDB.get_value_option
  rw [hres]
  show lookupFound key V (seekForPrev db.jmtValues (key, V)) =
    Except.ok (asOf (histOf db key) V)
  cases hseek : seekForPrev db.jmtValues (key, V) with
  | none =>
      have hno := seekForPrev_none_spec hseek
      have hnone : asOf (histOf db key) V = none := by
        apply asOf_eq_none
        intro p hp hple
        rcases p with ⟨vi, wi⟩
        exact hno _ (mem_histOf.1 hp)
          ((Prod.Lex.le_iff _ _).2 (Or.inr ⟨rfl, hple⟩))
      rw [hnone]
      rfl
  | some e =>
      rcases e with ⟨⟨fk, fv⟩, val⟩
      obtain ⟨hmem, hle, hmax⟩ := seekForPrev_spec hseek
      by_cases hfk : fk = key
      · subst hfk
        have hfv : fv ≤ V := by
          rcases (Prod.Lex.le_iff _ _).1 hle with h1 | h2
          · exact absurd h1 (lt_irrefl _)
          · exact h2.2
        have hasof : asOf (histOf db fk) V = val := by
          refine asOf_eq (mem_histOf.2 hmem) hfv ?_ ?_
          · intro p hp hple
            rcases p with ⟨vi, wi⟩
            have h1 : toLex ((fk, vi) : CompositeKey) ≤ toLex (fk, V) :=
              (Prod.Lex.le_iff _ _).2 (Or.inr ⟨rfl, hple⟩)
            have h2 := hmax _ (mem_histOf.1 hp) h1
            rcases (Prod.Lex.le_iff _ _).1 h2 with h3 | h4
            · exact absurd h3 (lt_irrefl _)
            · exact h4.2
          · intro p hp hpv
            rcases p with ⟨vi, wi⟩
            simp only at hpv
            subst hpv
            exact mem_unique_of_nodup_keys hwf (mem_histOf.1 hp) hmem
        rw [hasof]
        simp [lookupFound, hfv]
      · have hasof : asOf (histOf db key) V = none := by
          apply asOf_eq_none
          intro p hp hple
          rcases p with ⟨vi, wi⟩
          have h1 : toLex ((key, vi) : CompositeKey) ≤ toLex (key, V) :=
            (Prod.Lex.le_iff _ _).2 (Or.inr ⟨rfl, hple⟩)
          have h2 := hmax _ (mem_histOf.1 hp) h1
          rcases (Prod.Lex.le_iff _ _).1 h2 with ha | hb
          · rcases (Prod.Lex.le_iff _ _).1 hle with hc | hd
            · exact absurd hc (lt_asymm ha)
            · exact hfk hd.1
          · exact hfk hb.1.symm
        rw [hasof]
        simp [lookupFound, hfk]

/-! ### Lemmas about the write path -/

theorem writeNodes_jmtValues (nodes : List (Bytes × Bytes)) :
    ∀ db : StateDB, (writeNodes db nodes).jmtValues = db.jmtValues := by
  induction nodes with
  | nil => intro db; rfl
  | cons e rest ih =>
      intro db
      rcases e with ⟨nk, nd⟩
      rw [writeNodes, ih]

theorem writeNodes_keyHashToKey (nodes : List (Bytes × Bytes)) :
    ∀ db : StateDB, (writeNodes db nodes).keyHashToKey = db.keyHashToKey := by
  induction nodes with
  | nil => intro db; rfl
  | cons e rest ih =>
      intro db
      rcases e with ⟨nk, nd⟩
      rw [writeNodes, ih]

theorem writeValues_keyHashToKey (l : List ((Version × Bytes) × Option Bytes)) :
    ∀ db : StateDB, ((writeValues db l).1).keyHashToKey = db.keyHashToKey := by
  induction l with
  | nil => intro db; rfl
  | cons e rest ih =>
      intro db
      rcases e with ⟨⟨v, kh⟩, val⟩
      rw [writeValues]
      cases hg : assocGet db.keyHashToKey kh with
      | some kp => rw [ih]
      | none => rfl

theorem writeValues_jmtNodes (l : List ((Version × Bytes) × Option Bytes)) :
    ∀ db : StateDB, ((writeValues db l).1).jmtNodes = db.jmtNodes := by
  induction l with
  | nil => intro db; rfl
  | cons e rest ih =>
      intro db
      rcases e with ⟨⟨v, kh⟩, val⟩
      rw [writeValues]
      cases hg : assocGet db.keyHashToKey kh with
      | some kp => rw [ih]
      | none => rfl

theorem writeValues_ok (l : List ((Version × Bytes) × Option Bytes)) :
    ∀ db : StateDB, (∀ e ∈ l, (assocGet db.keyHashToKey e.1.2).isSome = true) →
      (writeValues db l).2 = none := by
  induction l with
  | nil => intro db _; rfl
  | cons e rest ih =>
      intro db h
      rcases e with ⟨⟨v, kh⟩, val⟩
      rw [writeValues]
      cases hg : assocGet db.keyHashToKey kh with
      | some kp =>
          apply ih
          intro e' he'
          exact h e' (List.mem_cons_of_mem _ he')
      | none =>
          exact absurd (h _ (List.mem_cons_self _ _)) (by simp [hg])

theorem writeValues_append (l₁ l₂ : List ((Version × Bytes) × Option Bytes)) :
    ∀ db : StateDB, (∀ e ∈ l₁, (assocGet db.keyHashToKey e.1.2).isSome = true) →
      writeValues db (l₁ ++ l₂) = writeValues (writeValues db l₁).1 l₂ := by
  induction l₁ with
  | nil => intro db _; rfl
  | cons e rest ih =>
      intro db h
      rcases e with ⟨⟨v, kh⟩, val⟩
      rw [List.cons_append, writeValues, writeValues]
      cases hg : assocGet db.keyHashToKey kh with
      | some kp =>
          apply ih
          intro e' he'
          exact h e' (List.mem_cons_of_mem _ he')
      | none =>
          exact absurd (h _ (List.mem_cons_self _ _)) (by simp [hg])

theorem writeValues_fail_head (db : StateDB) (v : Version) (kh : Bytes)
    (val : Option Bytes) (rest : List ((Version × Bytes) × Option Bytes))
    (hmiss : assocGet db.keyHashToKey kh = none) :
    writeValues db (((v, kh), val) :: rest) = (db, some (missingPreimageMsg kh)) := by
  rw [writeValues, hmiss]

theorem writeValues_exists_fail (l : List ((Version × Bytes) × Option Bytes)) :
    ∀ db : StateDB, (∃ e ∈ l, assocGet db.keyHashToKey e.1.2 = none) →
      ∃ h2, (writeValues db l).2 = some (missingPreimageMsg h2) ∧
        assocGet db.keyHashToKey h2 = none := by
  induction l with
  | nil => intro db h; rcases h with ⟨e, he, _⟩; cases he
  | cons e rest ih =>
      intro db h
      rcases e with ⟨⟨v, kh⟩, val⟩
      rw [writeValues]
      cases hg : assocGet db.keyHashToKey kh with
      | some kp =>
          rcases h with ⟨e', he', hnone⟩
          rcases List.mem_cons.1 he' with he0 | he1
          · exfalso
            rw [he0] at hnone
            simp only at hnone
            rw [hnone] at hg
            cases hg
          · exact ih _ ⟨e', he1, hnone⟩
      | none => exact ⟨kh, rfl, hg⟩

theorem writeNodes_get_of_not_mem (nodes : List (Bytes × Bytes)) :
    ∀ db : StateDB, ∀ K : Bytes, K ∉ nodes.map (·.1) →
      assocGet (writeNodes db nodes).jmtNodes K = assocGet db.jmtNodes K := by
  induction nodes with
  | nil => intro db K _; rfl
  | cons e rest ih =>
      intro db K h
      rcases e with ⟨nk, nd⟩
      rw [List.map_cons, List.mem_cons] at h
      push_neg at h
      rw [writeNodes, ih _ _ h.2]
      exact assocGet_put_ne _ _ h.1

theorem writeNodes_get (nodes : List (Bytes × Bytes)) :
    ∀ db : StateDB, ∀ K N : Bytes, (nodes.map (·.1)).Nodup → (K, N) ∈ nodes →
      assocGet (writeNodes db nodes).jmtNodes K = some N := by
  induction nodes with
  | nil => intro db K N _ hm; cases hm
  | cons e rest ih =>
      intro db K N hnd hm
      rcases e with ⟨nk, nd⟩
      rw [List.map_cons, List.nodup_cons] at hnd
      rcases List.mem_cons.1 hm with h0 | h1
      · have hK : nk = K := (congrArg Prod.fst h0).symm
        have hN : nd = N := (congrArg Prod.snd h0).symm
        subst hK; subst hN
        have hnm : nk ∉ rest.map (·.1) := by simpa using hnd.1
        rw [writeNodes, writeNodes_get_of_not_mem rest _ _ hnm]
        exact assocGet_put_self _ _ _
      · rw [writeNodes]
        exact ih _ _ _ hnd.2 h1

/-! ### Concrete data for the spec's §8 scenario -/

/-- The preimage "alice" as bytes. -/
def aliceKey : Bytes := [97, 108, 105, 99, 101]

/-- A 32-byte key hash H1 for the scenario. -/
def hashH1 : Bytes := List.replicate 32 1

/-- A 32-byte key hash with no preimage recorded. -/
def hashH2 : Bytes := List.replicate 32 2

/-- An empty store. -/
def db0 : StateDB := ⟨[], [], []⟩

/-- A store whose Preimage Index maps H1 to "alice" and whose other tables
are empty. -/
def dbPre : StateDB := ⟨[], [], [(hashH1, aliceKey)]⟩

def b100 : Bytes := [49, 48, 48]

def b250 : Bytes := [50, 53, 48]

/-- The scenario batches of spec §8: value b"100" for H1 at version 1 and
value b"250" for H1 at version 5. -/
def batch15 : NodeBatch := ⟨[], [((1, hashH1), some b100), ((5, hashH1), some b250)]⟩

/-- The store after applying the §8 scenario writes. -/
def dbScenario : StateDB := (dbPre.write_node_batch batch15).1

/-- A batch writing a value at version 1, then a tombstone at version 5. -/
def batchTomb : NodeBatch := ⟨[], [((1, hashH1), some b100), ((5, hashH1), none)]⟩

/-- The store after a value write at version 1 and a tombstone at version 5. -/
def dbTomb : StateDB := (dbPre.write_node_batch batchTomb).1

/-! ### The claims -/

/-- C1.  Monotone lookup law: for a key hash whose preimage is recorded in
the Preimage Index, `get_value_option` at version `V` returns exactly the
spec-side `asOf` view of the key's stored history — the payload written at
the greatest version `vi ≤ V` — and in particular returns `None` whenever
every recorded write is at a version greater than `V` (which covers both
`V < v1` and an empty history). -/
theorem monotone_lookup_law (db : StateDB) (V : Version) (key_hash key : Bytes)
    (hres : assocGet db.keyHashToKey key_hash = some key) (hwf : db.WF) :
    db.get_value_option V key_hash = .ok (asOf (histOf db key) V) ∧
    ((∀ p ∈ histOf db key, V < p.1) →
      db.get_value_option V key_hash = .ok none) := by
  have hmain := get_value_eq_asOf db V key_hash key hres hwf
  refine ⟨hmain, fun hall => ?_⟩
  rw [hmain, asOf_eq_none (fun p hp => Nat.not_le.2 (hall p hp))]

/-- Witness for C1 at the spec's §8 scenario: after writes at versions 1 and
5, the lookup at version 3 returns the value written at version 1. -/
theorem monotone_lookup_law_witness :
    assocGet dbScenario.keyHashToKey hashH1 = some aliceKey ∧
    dbScenario.WF ∧
    dbScenario.get_value_option 3 hashH1 = .ok (asOf (histOf dbScenario aliceKey) 3) ∧
    asOf (histOf dbScenario aliceKey) 3 = some b100 :=
  ⟨by decide, by decide,
    (monotone_lookup_law dbScenario 3 hashH1 aliceKey (by decide) (by decide)).1,
    by decide⟩

/-- C2.  Seek invariant is defensively asserted: when the seek finds an entry
whose preimage component equals the resolved preimage, either its version is
at most the requested version and its payload is returned, or the operation
fails with the explicit internal-invariant error; and for any found version
strictly greater than the requested version the found-entry branch of the
code produces the error, never an `Ok(None)`. -/
theorem seek_invariant_asserted (db : StateDB) (version : Version)
    (key_hash key fk : Bytes) (fv : Version) (val : Option Bytes)
    (hres : assocGet db.keyHashToKey key_hash = some key)
    (hseek : seekForPrev db.jmtValues (key, version) = some ((fk, fv), val))
    (hfk : fk = key) :
    ((fv ≤ version ∧ db.get_value_option version key_hash = .ok val) ∨
      db.get_value_option version key_hash = .error (bugMsg version fv)) ∧
    (∀ fv2 : Version, ∀ val2 : Option Bytes, version < fv2 →
      lookupFound key version (some ((key, fv2), val2)) =
        .error (bugMsg version fv2)) := by
  subst hfk
  constructor
  · obtain ⟨_, hle, _⟩ := seekForPrev_spec hseek
    have hfv : fv ≤ version := by
      rcases (Prod.Lex.le_iff _ _).1 hle with h1 | h2
      · exact absurd h1 (lt_irrefl _)
      · exact h2.2
    left
    refine ⟨hfv, ?_⟩
    unfold StateDB.get_value_option
    rw [hres]
    show lookupFound fk version (seekForPrev db.jmtValues (fk, version)) = _
    rw [hseek]
    simp [lookupFound, hfv]
  · intro fv2 val2 hgt
    simp [lookupFound, Nat.not_le.2 hgt]

/-- Witness for C2: in the scenario store the seek at version 3 finds the
entry of version 1 for "alice", and the value is returned. -/
theorem seek_invariant_asserted_witness :
    seekForPrev dbScenario.jmtValues (aliceKey, 3) = some ((aliceKey, 1), some b100) ∧
    ((1 ≤ 3 ∧ dbScenario.get_value_option 3 hashH1 = .ok (some b100)) ∨
      dbScenario.get_value_option 3 hashH1 = .error (bugMsg 3 1)) :=
  ⟨by decide,
    (seek_invariant_asserted dbScenario 3 hashH1 aliceKey aliceKey 1 (some b100)
      (by decide) (by decide) rfl).1⟩

/-- C6.  Unknown-key law: a key hash never recorded in the `KeyHashToKey`
table yields `Ok(None)` at every version, whatever the contents of the
Versioned Value Store (`JmtValues`) are — the store is not consulted. -/
theorem unknown_key_law (db : StateDB) (vals : List (CompositeKey × Option Bytes))
    (V : Version) (key_hash : Bytes)
    (hmiss : assocGet db.keyHashToKey key_hash = none) :
    StateDB.get_value_option { db with jmtValues := vals } V key_hash = .ok none :=
  get_value_none_of_unresolved { db with jmtValues := vals } V hmiss

/-- Witness for C6: the hash H2 was never recorded, so even a store holding
values for other keys answers `Ok(None)`. -/
theorem unknown_key_law_witness :
    assocGet dbScenario.keyHashToKey hashH2 = none ∧
    StateDB.get_value_option
      { dbScenario with jmtValues := [((aliceKey, 1), some b100)] } 9 hashH2 =
        .ok none :=
  ⟨by decide, unknown_key_law dbScenario [((aliceKey, 1), some b100)] 9 hashH2 (by decide)⟩

/-- C5.  Tombstone semantics: with a value written at `v1` and a tombstone
(`None` payload) at `v2 > v1`, and no other writes for the key, the lookup
returns `None` for every `V ≥ v2` and the earlier value for `v1 ≤ V < v2`. -/
theorem tombstone_semantics (db : StateDB) (key_hash key : Bytes)
    (v1 v2 : Version) (w : Bytes) (hwf : db.WF)
    (hres : assocGet db.keyHashToKey key_hash = some key)
    (h1m : ((key, v1), some w) ∈ db.jmtValues)
    (h2m : ((key, v2), (none : Option Bytes)) ∈ db.jmtValues)
    (h12 : v1 < v2)
    (honly : ∀ e ∈ db.jmtValues, e.1.1 = key → e.1.2 = v1 ∨ e.1.2 = v2) :
    ∀ V : Version,
      (v2 ≤ V → db.get_value_option V key_hash = .ok none) ∧
      (v1 ≤ V → V < v2 → db.get_value_option V key_hash = .ok (some w)) := by
  intro V
  have hmain := get_value_eq_asOf db V key_hash key hres hwf
  have hvers : ∀ p ∈ histOf db key, p.1 = v1 ∨ p.1 = v2 := by
    intro p hp
    rcases p with ⟨vi, wi⟩
    exact honly _ (mem_histOf.1 hp) rfl
  constructor
  · intro hV
    have hasof : asOf (histOf db key) V = none := by
      refine asOf_eq (mem_histOf.2 h2m) hV ?_ ?_
      · intro p hp _
        rcases hvers p hp with h | h
        · rw [h]; exact le_of_lt h12
        · rw [h]
      · intro p hp hpv
        rcases p with ⟨vi, wi⟩
        simp only at hpv
        subst hpv
        exact mem_unique_of_nodup_keys hwf (mem_histOf.1 hp) h2m
    rw [hmain, hasof]
  · intro hV1 hV2
    have hasof : asOf (histOf db key) V = some w := by
      refine asOf_eq (mem_histOf.2 h1m) hV1 ?_ ?_
      · intro p hp hple
        rcases hvers p hp with h | h
        · rw [h]
        · exfalso
          rw [h] at hple
          exact absurd (lt_of_le_of_lt hple hV2) (lt_irrefl _)
      · intro p hp hpv
        rcases p with ⟨vi, wi⟩
        simp only at hpv
        subst hpv
        exact mem_unique_of_nodup_keys hwf (mem_histOf.1 hp) h1m
    rw [hmain, hasof]

/-- Witness for C5: value at version 1, tombstone at version 5; the lookup
at version 5 returns `None` and at version 3 still returns the value. -/
theorem tombstone_semantics_witness :
    dbTomb.get_value_option 5 hashH1 = .ok none ∧
    dbTomb.get_value_option 3 hashH1 = .ok (some b100) :=
  ⟨(tombstone_semantics dbTomb hashH1 aliceKey 1 5 b100 (by decide) (by decide)
      (by decide) (by decide) (by decide) (by decide) 5).1 (by decide),
   (tombstone_semantics dbTomb hashH1 aliceKey 1 5 b100 (by decide) (by decide)
      (by decide) (by decide) (by decide) (by decide) 3).2 (by decide) (by decide)⟩

/-- C4 counterexample: the claim says `get_rightmost_leaf` returns normally
on every store state (`None` on the empty tree); on the empty store the code
panics via `todo!` instead of returning `PanicOr.normal none`. -/
theorem get_rightmost_leaf_panics_on_empty :
    db0.get_rightmost_leaf = PanicOr.panics "not yet implemented" ∧
    db0.get_rightmost_leaf ≠ PanicOr.normal none :=
  ⟨rfl, by decide⟩

/-- C4 (amended).  `get_rightmost_leaf` is unimplemented: its body is
`todo!()`, so it panics ("not yet implemented") on every store state and
never returns normally. -/
theorem get_rightmost_leaf_unimplemented (db : StateDB) :
    db.get_rightmost_leaf = PanicOr.panics "not yet implemented" :=
  rfl

/-- C7.  Node round-trip: after a batch whose node entries contain
`(K, N)` (node keys of a batch are distinct, as `NodeBatch::nodes()` is a
map) is applied successfully, `get_node_option K` returns exactly `N`. -/
theorem node_round_trip (db : StateDB) (batch : NodeBatch) (K N : Bytes)
    (hnd : (batch.nodes.map (·.1)).Nodup)
    (hm : (K, N) ∈ batch.nodes)
    (_hok : (db.write_node_batch batch).2 = none) :
    ((db.write_node_batch batch).1).get_node_option K = .ok (some N) := by
  unfold StateDB.get_node_option
  rw [StateDB.write_node_batch, writeValues_jmtNodes]
  rw [writeNodes_get batch.nodes db K N hnd hm]

/-- Witness for C7: a batch writing node `[7] ↦ [8, 9]` on the empty store
round-trips. -/
theorem node_round_trip_witness :
    (db0.write_node_batch ⟨[([7], [8, 9])], []⟩).2 = none ∧
    ((db0.write_node_batch ⟨[([7], [8, 9])], []⟩).1).get_node_option [7] =
      .ok (some [8, 9]) :=
  ⟨by decide,
    node_round_trip db0 ⟨[([7], [8, 9])], []⟩ [7] [8, 9] (by decide) (by decide)
      (by decide)⟩

/-- C3.  Preimage precondition: a batch holding a value write for a key hash
with no resolvable preimage fails with the missing-preimage error; the hash
stays unresolvable afterwards and no effect of the offending entry is
observable — every lookup for that hash still answers `Ok(None)`. -/
theorem missing_preimage_batch_fails (db : StateDB) (batch : NodeBatch)
    (v : Version) (kh : Bytes) (val : Option Bytes)
    (hmem : ((v, kh), val) ∈ batch.values)
    (hmiss : assocGet db.keyHashToKey kh = none) :
    (∃ h2, (db.write_node_batch batch).2 = some (missingPreimageMsg h2)) ∧
    assocGet ((db.write_node_batch batch).1).keyHashToKey kh = none ∧
    ∀ V : Version,
      ((db.write_node_batch batch).1).get_value_option V kh = .ok none := by
  have hkeys : (writeNodes db batch.nodes).keyHashToKey = db.keyHashToKey :=
    writeNodes_keyHashToKey batch.nodes db
  have hmiss' : assocGet (writeNodes db batch.nodes).keyHashToKey kh = none := by
    rw [hkeys]; exact hmiss
  have hfail := writeValues_exists_fail batch.values (writeNodes db batch.nodes)
    ⟨((v, kh), val), hmem, hmiss'⟩
  have hfinal : assocGet ((db.write_node_batch batch).1).keyHashToKey kh = none := by
    rw [StateDB.write_node_batch, writeValues_keyHashToKey, hkeys]
    exact hmiss
  refine ⟨?_, hfinal, ?_⟩
  · rcases hfail with ⟨h2, herr, _⟩
    exact ⟨h2, herr⟩
  · intro V
    exact get_value_none_of_unresolved _ V hfinal

/-- A batch whose only value entry references the unresolvable hash H1 of
the empty store. -/
def batchMiss : NodeBatch := ⟨[], [((1, hashH1), some b100)]⟩

/-- Witness for C3: applying `batchMiss` on the empty store fails with the
missing-preimage error and H1 still reads as `Ok(None)`. -/
theorem missing_preimage_batch_fails_witness :
    assocGet db0.keyHashToKey hashH1 = none ∧
    (∃ h2, (db0.write_node_batch batchMiss).2 = some (missingPreimageMsg h2)) ∧
    ((db0.write_node_batch batchMiss).1).get_value_option 7 hashH1 = .ok none :=
  ⟨by decide,
    (missing_preimage_batch_fails db0 batchMiss 1 hashH1 (some b100) (by decide)
      (by decide)).1,
    (missing_preimage_batch_fails db0 batchMiss 1 hashH1 (some b100) (by decide)
      (by decide)).2.2 7⟩

/-- C9.  Partial effects on batch failure: all node entries are written
before any value entry is processed, so when the value loop fails on the
first unresolvable entry, the resulting store holds every node write and
every value write preceding the failing entry (the batch is not applied
atomically), and the error is the missing-preimage error of that entry. -/
theorem write_node_batch_partial_effects (db : StateDB)
    (nodes : List (Bytes × Bytes))
    (pre post : List ((Version × Bytes) × Option Bytes))
    (v : Version) (kh : Bytes) (val : Option Bytes)
    (hpre : ∀ e ∈ pre, (assocGet db.keyHashToKey e.1.2).isSome = true)
    (hmiss : assocGet db.keyHashToKey kh = none) :
    db.write_node_batch ⟨nodes, pre ++ ((v, kh), val) :: post⟩ =
      ((writeValues (writeNodes db nodes) pre).1, some (missingPreimageMsg kh)) ∧
    ((db.write_node_batch ⟨nodes, pre ++ ((v, kh), val) :: post⟩).1).jmtNodes =
      (writeNodes db nodes).jmtNodes ∧
    (writeValues (writeNodes db nodes) pre).2 = none := by
  have hkeys : (writeNodes db nodes).keyHashToKey = db.keyHashToKey :=
    writeNodes_keyHashToKey nodes db
  have hpre' : ∀ e ∈ pre,
      (assocGet (writeNodes db nodes).keyHashToKey e.1.2).isSome = true := by
    intro e he; rw [hkeys]; exact hpre e he
  have hsplit := writeValues_append pre (((v, kh), val) :: post)
    (writeNodes db nodes) hpre'
  have hmiss' : assocGet ((writeValues (writeNodes db nodes) pre).1).keyHashToKey
      kh = none := by
    rw [writeValues_keyHashToKey, hkeys]; exact hmiss
  have hmain : db.write_node_batch ⟨nodes, pre ++ ((v, kh), val) :: post⟩ =
      ((writeValues (writeNodes db nodes) pre).1, some (missingPreimageMsg kh)) := by
    rw [StateDB.write_node_batch]
    show writeValues (writeNodes db nodes) (pre ++ ((v, kh), val) :: post) = _
    rw [hsplit, writeValues_fail_head _ v kh val post hmiss']
  refine ⟨hmain, ?_, writeValues_ok pre (writeNodes db nodes) hpre'⟩
  rw [hmain]
  exact writeValues_jmtNodes pre (writeNodes db nodes)

/-- Witness for C9: on the store that resolves H1 (but not H2), a batch with
one node entry, a resolvable value entry for H1 and then an unresolvable one
for H2 fails on the H2 entry while the node write and the H1 value write
persist. -/
theorem write_node_batch_partial_effects_witness :
    dbPre.write_node_batch ⟨[([7], [8])], [((1, hashH1), some b100)] ++
        ((2, hashH2), some b250) :: []⟩ =
      ((writeValues (writeNodes dbPre [([7], [8])]) [((1, hashH1), some b100)]).1,
        some (missingPreimageMsg hashH2)) ∧
    (writeValues (writeNodes dbPre [([7], [8])]) [((1, hashH1), some b100)]).2 =
      none := by
  have h := write_node_batch_partial_effects dbPre [([7], [8])]
    [((1, hashH1), some b100)] [] 2 hashH2 (some b250) (by decide) (by decide)
  exact ⟨h.1, h.2.2⟩

/-- C8.  Proof wire-format round-trip: `encode` emits exactly the 32
program-id bytes, one validity byte (1 when valid, 0 otherwise), then the
log bytes; and `decode` applied to the encoding returns the proof
unchanged. -/
theorem mock_proof_round_trip (p : MockProof) (h32 : p.program_id.length = 32) :
    p.encode_to_vec = p.program_id ++ [if p.is_valid then 1 else 0] ++ p.log ∧
    MockProof.decode p.encode_to_vec = .ok p := by
  rcases p with ⟨pid, valid, log⟩
  simp only at h32
  have henc : MockProof.encode_to_vec ⟨pid, valid, log⟩ =
      pid ++ [if valid then 1 else 0] ++ log := by
    simp [MockProof.encode_to_vec, MockProof.encode]
  refine ⟨henc, ?_⟩
  rw [henc]
  have hlen' : (pid ++ [if valid then 1 else 0]).length = 33 := by
    simp [h32]
  have hge : 33 ≤ (pid ++ [if valid then 1 else 0] ++ log).length := by
    simp only [List.length_append, List.length_cons, List.length_nil, h32]
    omega
  rw [MockProof.decode, if_pos hge]
  have htake : (pid ++ [if valid then 1 else 0] ++ log).take 32 = pid := by
    rw [List.append_assoc]
    exact List.take_left' h32
  have hdrop : (pid ++ [if valid then 1 else 0] ++ log).drop 33 = log :=
    List.drop_left' hlen'
  have hflag : (pid ++ [if valid then 1 else 0] ++ log).getD 32 0 =
      (if valid then 1 else 0) := by
    rw [List.append_assoc, List.getD_eq_getElem?_getD,
      List.getElem?_append_right h32.le, h32]
    simp
  rw [htake, hdrop, hflag]
  cases valid <;> simp

/-- Witness for C8: a proof with a 32-byte program id, valid flag and a
2-byte log round-trips through encode/decode. -/
theorem mock_proof_round_trip_witness :
    (MockProof.mk (List.replicate 32 1) true [2, 2]).program_id.length = 32 ∧
    MockProof.decode (MockProof.mk (List.replicate 32 1) true [2, 2]).encode_to_vec =
      .ok (MockProof.mk (List.replicate 32 1) true [2, 2]) :=
  ⟨by decide,
    (mock_proof_round_trip (MockProof.mk (List.replicate 32 1) true [2, 2])
      (by decide)).2⟩

/-- C10.  Decode totality and flag interpretation: `decode` errors exactly
on inputs shorter than 33 bytes; on success the program id is bytes 0..32,
`is_valid` holds exactly when byte 32 equals 1 (any other byte value, not
only 0, gives `is_valid = false`), and the log is bytes 33 onward. -/
theorem mock_proof_decode_total (input : Bytes) :
    ((∃ e, MockProof.decode input = .error e) ↔ input.length < 33) ∧
    (∀ p : MockProof, MockProof.decode input = .ok p →
      p.program_id = input.take 32 ∧ (p.is_valid = true ↔ input.getD 32 0 = 1) ∧
        p.log = input.drop 33) := by
  by_cases h : 33 ≤ input.length
  · rw [MockProof.decode, if_pos h]
    constructor
    · constructor
      · rintro ⟨e, he⟩
        cases he
      · intro hlt
        omega
    · intro p hp
      injection hp with hp
      rw [← hp]
      refine ⟨rfl, ?_, rfl⟩
      simp only [beq_iff_eq]
  · rw [MockProof.decode, if_neg h]
    constructor
    · constructor
      · intro _
        omega
      · intro _
        exact ⟨"Input is too short", rfl⟩
    · intro p hp
      cases hp

/-- Witness for C10: a 33-byte input whose byte 32 is 7 (neither 0 nor 1)
decodes successfully with `is_valid = false`. -/
theorem mock_proof_decode_total_witness :
    MockProof.decode (List.replicate 32 0 ++ [7]) =
      .ok (MockProof.mk (List.replicate 32 0) false []) ∧
    ((MockProof.mk (List.replicate 32 0) false []).is_valid = true ↔
      (List.replicate 32 0 ++ [7]).getD 32 0 = 1) :=
  ⟨by decide,
    ((mock_proof_decode_total (List.replicate 32 0 ++ [7])).2
      (MockProof.mk (List.replicate 32 0) false []) (by decide)).2.1⟩
